import Mathlib

/-!
Verification of the BootCache specification against the repository's
source.  The repository ships the public header `BootCache.h`: the data
model (`BC_playlist_entry`, `BC_history_entry`, `BC_command`,
`BC_statistics`), the protocol constants (`BC_MAGIC*`, `BC_MAXENTRIES`,
`BC_HE_*`, `BC_PLC_CHUNK`) and the prototypes of the support-library
functions (`BC_sort_playlist`, `BC_coalesce_playlist`,
`BC_merge_playlists`, `BC_convert_history`, `BC_read_playlist`,
`BC_write_playlist`, `BC_start`, `BC_stop`, ...).  The bodies of those
functions and of the cache engine are not part of the repository's files,
so they are modelled from the specification's own description and each
such definition carries a doc comment saying so.

Machine integers: `pce_offset`/`pce_length` are `u_int64_t` in the
header.  The specification's data-model invariant states that
`offset + length` never overflows, and none of the claims exercises
wraparound, so disk addresses are embedded as `Nat`.
-/

namespace BootCache

/-- Playlist entry, from `BootCache.h` lines 53-58: a region of disk to be
cached, `{pce_offset, pce_length, pce_flags}`. -/
structure BC_playlist_entry where
  pce_offset : Nat
  pce_length : Nat
  pce_flags : Nat
  deriving DecidableEq

/-- `PCE_PREFETCH`, `BootCache.h` line 57: flag bit `(1<<0)`. -/
def PCE_PREFETCH : Nat := 1

/-- `BC_MAXENTRIES`, `BootCache.h` line 64: upper bound on entry count. -/
def BC_MAXENTRIES : Nat := 100000

/-- `BC_PLC_CHUNK`, `BootCache.h` line 61: entries copied in per transfer. -/
def BC_PLC_CHUNK : Nat := 512

/-- `BC_MAGIC_0`, `BootCache.h` line 18 (old version, DEV_BSIZE blocks). -/
def BC_MAGIC_0 : Int := 0x10102021

/-- `BC_MAGIC_1`, `BootCache.h` line 19 (disk addresses in bytes). -/
def BC_MAGIC_1 : Int := 0x10102021

/-- `BC_MAGIC`, `BootCache.h` line 20 (flags field added to entries). -/
def BC_MAGIC : Int := 0x10102021

/-- History entry, from `BootCache.h` lines 82-90:
`{he_offset, he_length, he_flags}`. -/
structure BC_history_entry where
  he_offset : Nat
  he_length : Nat
  he_flags : Nat
  deriving DecidableEq

/-- `BC_HE_MISS`, `BootCache.h` line 86. -/
def BC_HE_MISS : Nat := 0

/-- `BC_HE_HIT`, `BootCache.h` line 87. -/
def BC_HE_HIT : Nat := 1

/-- `BC_HE_TAG`, `BootCache.h` line 88. -/
def BC_HE_TAG : Nat := 2

/-- `BC_HE_WRITE`, `BootCache.h` line 89. -/
def BC_HE_WRITE : Nat := 3

/-- One past the last byte of an extent: `pce_offset + pce_length`. -/
def entEnd (e : BC_playlist_entry) : Nat := e.pce_offset + e.pce_length

/-- The sort order of `BC_sort_playlist` as the spec fixes it: ascending
by offset, ties broken by descending length (the larger extent first so it
can subsume smaller ones during coalescing). -/
def entLEP (a b : BC_playlist_entry) : Prop :=
  a.pce_offset < b.pce_offset ∨
    (a.pce_offset = b.pce_offset ∧ b.pce_length ≤ a.pce_length)

instance : DecidableRel entLEP := fun a b =>
  inferInstanceAs (Decidable (a.pce_offset < b.pce_offset ∨
    (a.pce_offset = b.pce_offset ∧ b.pce_length ≤ a.pce_length)))

instance : IsTotal BC_playlist_entry entLEP :=
  ⟨fun a b => by unfold entLEP; omega⟩

instance : IsTrans BC_playlist_entry entLEP :=
  ⟨fun a b c hab hbc => by unfold entLEP at *; omega⟩

/-- Modelled from the spec: the body of `BC_sort_playlist` is not among
the repository's files (the header only declares it).  Spec 4.1: sort
ascending by offset, ties broken by descending length, stable otherwise —
embedded as insertion sort under `entLEP`. -/
def BC_sort_playlist (l : List BC_playlist_entry) : List BC_playlist_entry :=
  List.insertionSort entLEP l

/-- Two extents overlap or touch: their closed byte ranges
`[offset, offset+length]` intersect. -/
def touchesP (a b : BC_playlist_entry) : Prop :=
  b.pce_offset ≤ entEnd a ∧ a.pce_offset ≤ entEnd b

instance : DecidableRel touchesP := fun a b =>
  inferInstanceAs (Decidable (b.pce_offset ≤ entEnd a ∧ a.pce_offset ≤ entEnd b))

/-- The merge of two touching-or-overlapping extents: the span
`[min(offset), max(offset+length))`, flags the bitwise union. -/
def mergeE (a b : BC_playlist_entry) : BC_playlist_entry :=
  ⟨min a.pce_offset b.pce_offset,
   max (entEnd a) (entEnd b) - min a.pce_offset b.pce_offset,
   a.pce_flags ||| b.pce_flags⟩

/-- Modelled from the spec: the body of `BC_coalesce_playlist` is not
among the repository's files.  The merging scan with the current extent
held in an accumulator: the next entry is merged into the current extent
while the two touch or overlap, otherwise the current extent is emitted. -/
def coalAux (cur : BC_playlist_entry) :
    List BC_playlist_entry → List BC_playlist_entry
  | [] => [cur]
  | b :: rest =>
      if touchesP cur b then coalAux (mergeE cur b) rest
      else cur :: coalAux b rest

/-- Modelled from the spec: the body of `BC_coalesce_playlist` is not
among the repository's files.  Spec 4.1: after sorting, one pass merges
every run of touching-or-overlapping extents.  This is the merging pass,
applied to an offset-sorted list. -/
def coalBody : List BC_playlist_entry → List BC_playlist_entry
  | [] => []
  | a :: t => coalAux a t

/-- Induction along the merging scan: the two-element head either merges
or the first entry is emitted. -/
theorem coalBody_induction (motive : List BC_playlist_entry → Prop)
    (case1 : motive [])
    (case2 : ∀ a, motive [a])
    (case3 : ∀ a b rest, touchesP a b →
      motive (mergeE a b :: rest) → motive (a :: b :: rest))
    (case4 : ∀ a b rest, ¬ touchesP a b →
      motive (b :: rest) → motive (a :: b :: rest)) :
    ∀ l, motive l := by
  have H : ∀ n l, l.length ≤ n → motive l := by
    intro n
    induction n with
    | zero =>
        intro l h
        have h0 : l = [] := List.length_eq_zero.mp (Nat.le_zero.mp h)
        subst h0
        exact case1
    | succ n ih =>
        intro l h
        cases l with
        | nil => exact case1
        | cons a t =>
            cases t with
            | nil => exact case2 a
            | cons b rest =>
                have hlen : (mergeE a b :: rest).length ≤ n := by
                  simp only [List.length_cons] at h ⊢
                  omega
                have hlen2 : (b :: rest).length ≤ n := by
                  simp only [List.length_cons] at h ⊢
                  omega
                by_cases htouch : touchesP a b
                · exact case3 a b rest htouch (ih _ hlen)
                · exact case4 a b rest htouch (ih _ hlen2)
  intro l
  exact H l.length l (le_refl _)

/-- Modelled from the spec: the body of `BC_coalesce_playlist` is not
among the repository's files (the header only declares it).  Spec 4.1:
input need not be sorted; output is sorted, pairwise-disjoint, with
touching-or-overlapping entries merged into `[min(offset),
max(offset+length))` and flags the bitwise union. -/
def BC_coalesce_playlist (l : List BC_playlist_entry) : List BC_playlist_entry :=
  coalBody (BC_sort_playlist l)

/-- Modelled from the spec: the body of `BC_merge_playlists` is not among
the repository's files (the header only declares it).  Spec 4.1:
concatenate, then coalesce. -/
def BC_merge_playlists (a b : List BC_playlist_entry) : List BC_playlist_entry :=
  BC_coalesce_playlist (a ++ b)

/-- Insert one extent at the front of a partial result, merging it with
the leading entries it touches.  `coalBody` on a sorted list is the right
fold of `step` (proved below); this form makes permutation reasoning
possible. -/
def step (x : BC_playlist_entry) : List BC_playlist_entry → List BC_playlist_entry
  | [] => [x]
  | c :: cs => if touchesP x c then step (mergeE x c) cs else x :: c :: cs

/-- Output entry `y` accounts for input entry `x`: `x`'s byte range lies
inside `y`'s span. -/
def within (y x : BC_playlist_entry) : Prop :=
  y.pce_offset ≤ x.pce_offset ∧ entEnd x ≤ entEnd y

instance (y x : BC_playlist_entry) : Decidable (within y x) :=
  inferInstanceAs (Decidable (y.pce_offset ≤ x.pce_offset ∧ entEnd x ≤ entEnd y))

/-- Extent `e` covers byte `p`. -/
def covers (e : BC_playlist_entry) (p : Nat) : Prop :=
  e.pce_offset ≤ p ∧ p < entEnd e

/-- Some entry of `l` covers byte `p`. -/
def coveredL (l : List BC_playlist_entry) (p : Nat) : Prop :=
  ∃ e ∈ l, covers e p

/-- Bitwise union of the flags of a list of extents. -/
def flagsOr (l : List BC_playlist_entry) : Nat :=
  l.foldr (fun e acc => e.pce_flags ||| acc) 0

/-- The input extents a given output entry accounts for: those whose byte
range lies inside its span. -/
def groupOf (X : List BC_playlist_entry) (y : BC_playlist_entry) :
    List BC_playlist_entry :=
  X.filter fun x => decide (within y x)

/-- Offsets ascend. -/
def offLE (a b : BC_playlist_entry) : Prop := a.pce_offset ≤ b.pce_offset

/-- `a` ends strictly before `b` begins: disjoint and not touching. -/
def sepRel (a b : BC_playlist_entry) : Prop := entEnd a < b.pce_offset

instance : IsTrans BC_playlist_entry offLE :=
  ⟨fun a b c hab hbc => le_trans hab hbc⟩

instance : IsTrans BC_playlist_entry sepRel :=
  ⟨fun a b c hab hbc => by
    unfold sepRel entEnd at *; omega⟩

/-- Consecutive entries ascend by offset. -/
def SortedOff (l : List BC_playlist_entry) : Prop := List.Chain' offLE l

/-- Consecutive entries are strictly separated: each ends before the next
begins, so the list is sorted, pairwise-disjoint and nowhere touching. -/
def SepL (l : List BC_playlist_entry) : Prop := List.Chain' sepRel l

/-! Geometry of extents and merges. -/

lemma entEnd_mergeE (a b : BC_playlist_entry) :
    entEnd (mergeE a b) = max (entEnd a) (entEnd b) := by
  simp only [mergeE, entEnd]
  omega

lemma mergeE_off (a b : BC_playlist_entry) :
    (mergeE a b).pce_offset = min a.pce_offset b.pce_offset := rfl

lemma mergeE_flags (a b : BC_playlist_entry) :
    (mergeE a b).pce_flags = a.pce_flags ||| b.pce_flags := rfl

lemma mergeE_assoc (a b c : BC_playlist_entry) :
    mergeE (mergeE a b) c = mergeE a (mergeE b c) := by
  simp only [mergeE, entEnd, BC_playlist_entry.mk.injEq]
  refine ⟨by omega, by omega, Nat.lor_assoc ..⟩

lemma mergeE_comm (a b : BC_playlist_entry) : mergeE a b = mergeE b a := by
  simp only [mergeE, entEnd, BC_playlist_entry.mk.injEq]
  refine ⟨by omega, by omega, Nat.lor_comm ..⟩

lemma touchesP_symm {a b : BC_playlist_entry} (h : touchesP a b) : touchesP b a :=
  ⟨h.2, h.1⟩

lemma touchesP_merge_right {a b c : BC_playlist_entry}
    (hab : touchesP a b) (hbc : touchesP b c) : touchesP a (mergeE b c) := by
  simp only [touchesP, mergeE, entEnd] at *
  omega

lemma touchesP_merge_left {a b c : BC_playlist_entry}
    (hbc : touchesP b c) : touchesP (mergeE a b) c := by
  simp only [touchesP, mergeE, entEnd] at *
  omega

lemma within_refl (a : BC_playlist_entry) : within a a :=
  ⟨le_refl _, le_refl _⟩

lemma within_trans {a b c : BC_playlist_entry}
    (h1 : within a b) (h2 : within b c) : within a c := by
  unfold within at *
  omega

lemma within_mergeE_left (a b : BC_playlist_entry) : within (mergeE a b) a := by
  simp only [within, mergeE, entEnd]
  omega

lemma within_mergeE_right (a b : BC_playlist_entry) : within (mergeE a b) b := by
  simp only [within, mergeE, entEnd]
  omega

lemma covers_mergeE {a b : BC_playlist_entry} (h : touchesP a b) (p : Nat) :
    covers (mergeE a b) p ↔ covers a p ∨ covers b p := by
  simp only [covers, touchesP, mergeE, entEnd] at *
  omega

@[simp] lemma coveredL_nil (p : Nat) : ¬ coveredL [] p := by
  simp [coveredL]

lemma coveredL_cons (x : BC_playlist_entry) (l : List BC_playlist_entry) (p : Nat) :
    coveredL (x :: l) p ↔ covers x p ∨ coveredL l p := by
  simp [coveredL]

@[simp] lemma flagsOr_nil : flagsOr [] = 0 := rfl

@[simp] lemma flagsOr_cons (x : BC_playlist_entry) (l : List BC_playlist_entry) :
    flagsOr (x :: l) = x.pce_flags ||| flagsOr l := rfl

lemma mem_groupOf {X : List BC_playlist_entry} {y x : BC_playlist_entry} :
    x ∈ groupOf X y ↔ x ∈ X ∧ within y x := by
  simp [groupOf]

/-! The merging pass: unfolding equations and the fold form. -/

@[simp] lemma coalBody_nil : coalBody [] = [] := rfl

@[simp] lemma coalBody_one (a : BC_playlist_entry) : coalBody [a] = [a] := rfl

lemma coalBody_cons₂ (a b : BC_playlist_entry) (rest : List BC_playlist_entry) :
    coalBody (a :: b :: rest) =
      if touchesP a b then coalBody (mergeE a b :: rest)
      else a :: coalBody (b :: rest) := rfl

lemma step_step (a b : BC_playlist_entry) (hab : touchesP a b) :
    ∀ z, step a (step b z) = step (mergeE a b) z := by
  intro z
  induction z generalizing a b with
  | nil => simp [step, hab]
  | cons c cs ih =>
      by_cases hbc : touchesP b c
      · have h1 : step b (c :: cs) = step (mergeE b c) cs := by simp [step, hbc]
        have h2 : touchesP a (mergeE b c) := touchesP_merge_right hab hbc
        have h3 : touchesP (mergeE a b) c := touchesP_merge_left hbc
        rw [h1, ih a (mergeE b c) h2, ← mergeE_assoc]
        simp [step, h3]
      · have h1 : step b (c :: cs) = b :: c :: cs := by simp [step, hbc]
        rw [h1]
        simp [step, hab]

lemma step_sep : ∀ (Y : List BC_playlist_entry) (x : BC_playlist_entry),
    SepL Y → (∀ c, Y.head? = some c → x.pce_offset ≤ c.pce_offset) →
    SepL (step x Y) ∧
      ∃ w ws, step x Y = w :: ws ∧ w.pce_offset = x.pce_offset := by
  intro Y
  induction Y with
  | nil =>
      intro x _ _
      refine ⟨List.chain'_singleton x, x, [], rfl, rfl⟩
  | cons c cs ih =>
      intro x hY hx
      have hxc : x.pce_offset ≤ c.pce_offset := hx c rfl
      have hcs : SepL cs := hY.tail
      by_cases h : touchesP x c
      · have hstep : step x (c :: cs) = step (mergeE x c) cs := by simp [step, h]
        have hhead : ∀ d, cs.head? = some d →
            (mergeE x c).pce_offset ≤ d.pce_offset := by
          intro d hd
          have hrel : sepRel c d := by
            cases cs with
            | nil => simp at hd
            | cons e es =>
                simp at hd
                subst hd
                exact (List.chain'_cons.mp hY).1
          have : c.pce_offset ≤ d.pce_offset := by
            unfold sepRel entEnd at hrel; omega
          rw [mergeE_off]
          omega
        obtain ⟨hsep, w, ws, heq, hoff⟩ := ih (mergeE x c) hcs hhead
        refine ⟨by rwa [hstep], w, ws, by rwa [hstep], ?_⟩
        rw [hoff, mergeE_off]
        omega
      · have hsx : sepRel x c := by
          unfold touchesP at h
          unfold sepRel
          unfold entEnd at *
          omega
        have hstep : step x (c :: cs) = x :: c :: cs := by simp [step, h]
        refine ⟨?_, x, c :: cs, hstep, rfl⟩
        rw [hstep]
        exact List.chain'_cons.mpr ⟨hsx, hY⟩

lemma foldr_step_sep : ∀ l : List BC_playlist_entry, SortedOff l →
    SepL (l.foldr step []) ∧
      (∀ x t, l = x :: t →
        ∃ w ws, l.foldr step [] = w :: ws ∧ w.pce_offset = x.pce_offset) := by
  intro l
  induction l with
  | nil =>
      intro _
      exact ⟨List.chain'_nil, by intro x t h; cases h⟩
  | cons x t ih =>
      intro hs
      have hst : SortedOff t := hs.tail
      obtain ⟨hsep, hhd⟩ := ih hst
      have hcond : ∀ c, (t.foldr step []).head? = some c →
          x.pce_offset ≤ c.pce_offset := by
        intro c hc
        cases t with
        | nil => simp at hc
        | cons b t' =>
            obtain ⟨w, ws, heq, hoff⟩ := hhd b t' rfl
            rw [heq] at hc
            simp at hc
            subst hc
            have : offLE x b := (List.chain'_cons.mp hs).1
            unfold offLE at this
            omega
      obtain ⟨h1, w, ws, heq, hoff⟩ := step_sep (t.foldr step []) x hsep hcond
      exact ⟨h1, by intro a s hl; cases hl; exact ⟨w, ws, heq, hoff⟩⟩

lemma sortedOff_merge {a b : BC_playlist_entry} {rest : List BC_playlist_entry}
    (h : SortedOff (a :: b :: rest)) : SortedOff (mergeE a b :: rest) := by
  have h1 : offLE a b := (List.chain'_cons.mp h).1
  have h2 : SortedOff (b :: rest) := h.tail
  cases rest with
  | nil => exact List.chain'_singleton _
  | cons c cs =>
      refine List.chain'_cons.mpr ⟨?_, h2.tail⟩
      have h3 : offLE b c := (List.chain'_cons.mp h2).1
      unfold offLE at *
      rw [mergeE_off]
      omega

lemma coalBody_eq_foldr : ∀ l : List BC_playlist_entry, SortedOff l →
    coalBody l = l.foldr step [] := by
  intro l
  induction l using coalBody_induction with
  | case1 => simp
  | case2 a => simp [step]
  | case3 a b rest ht ih =>
      intro hs
      rw [coalBody_cons₂, if_pos ht, ih (sortedOff_merge hs)]
      simp only [List.foldr_cons]
      rw [step_step a b ht]
  | case4 a b rest ht ih =>
      intro hs
      rw [coalBody_cons₂, if_neg ht, ih hs.tail]
      have hab : offLE a b := (List.chain'_cons.mp hs).1
      obtain ⟨w, ws, heq, hoff⟩ := (foldr_step_sep (b :: rest) hs.tail).2 b rest rfl
      have hnt : ¬ touchesP a w := by
        unfold touchesP at ht ⊢
        unfold offLE at hab
        unfold entEnd at *
        omega
      simp only [List.foldr_cons]
      rw [show (b :: rest).foldr step [] = List.foldr step [] (b :: rest) from rfl] at heq
      simp only [List.foldr_cons] at heq
      rw [heq]
      simp [step, hnt]

lemma entLEP_refl (a : BC_playlist_entry) : entLEP a a :=
  Or.inr ⟨rfl, le_refl _⟩

lemma entLEP_trans {a b c : BC_playlist_entry}
    (h1 : entLEP a b) (h2 : entLEP b c) : entLEP a c := by
  unfold entLEP at *
  omega

lemma entLEP_antisymm_fields {a b : BC_playlist_entry}
    (h1 : entLEP a b) (h2 : entLEP b a) :
    a.pce_offset = b.pce_offset ∧ a.pce_length = b.pce_length := by
  unfold entLEP at *
  omega

lemma sorted_head_le {a : BC_playlist_entry} {t : List BC_playlist_entry}
    (h : List.Sorted entLEP (a :: t)) :
    ∀ z ∈ a :: t, entLEP a z := by
  intro z hz
  rcases List.mem_cons.mp hz with h1 | h1
  · subst h1; exact entLEP_refl z
  · exact (List.sorted_cons.mp h).1 z h1

lemma foldr_perm_sorted : ∀ (n : Nat) (l l₂ : List BC_playlist_entry),
    l.length ≤ n → l.Perm l₂ →
    List.Sorted entLEP l → List.Sorted entLEP l₂ →
    l.foldr step [] = l₂.foldr step [] := by
  intro n
  induction n with
  | zero =>
      intro l l₂ hlen hp _ _
      have h0 : l = [] := List.length_eq_zero.mp (Nat.le_zero.mp hlen)
      subst h0
      rw [List.perm_nil.mp hp.symm]
  | succ n ih =>
      intro l l₂ hlen hp hs hs₂
      cases l with
      | nil => rw [List.perm_nil.mp hp.symm]
      | cons a t =>
          cases l₂ with
          | nil => exact absurd (List.perm_nil.mp hp) (by simp)
          | cons a₂ t₂ =>
              have hmem : a ∈ a₂ :: t₂ := hp.mem_iff.mp (List.mem_cons_self a t)
              have hmem₂ : a₂ ∈ a :: t := hp.mem_iff.mpr (List.mem_cons_self a₂ t₂)
              have hle1 : entLEP a a₂ := sorted_head_le hs a₂ hmem₂
              have hle2 : entLEP a₂ a := sorted_head_le hs₂ a hmem
              have hfields := entLEP_antisymm_fields hle1 hle2
              by_cases heq : a = a₂
              · subst heq
                have hpt : t.Perm t₂ := hp.cons_inv
                have hlen' : t.length ≤ n := by
                  simp only [List.length_cons] at hlen; omega
                simp only [List.foldr_cons]
                rw [ih t t₂ hlen' hpt hs.of_cons hs₂.of_cons]
              · have hat₂ : a ∈ t₂ := by
                  rcases List.mem_cons.mp hmem with h1 | h1
                  · exact absurd h1 heq
                  · exact h1
                have hkey₁ : t.Perm (a₂ :: t₂.erase a) := by
                  have h1 : (a :: t).erase a = t := List.erase_cons_head a t
                  have h2 : (a₂ :: t₂).erase a = a₂ :: t₂.erase a := by
                    apply List.erase_cons_tail
                    simp only [beq_iff_eq]
                    exact fun h => heq h.symm
                  have h3 := hp.erase a
                  rw [h1, h2] at h3
                  exact h3
                have hkey₂ : t₂.Perm (a :: t₂.erase a) := List.perm_cons_erase hat₂
                have s_head₂ : ∀ z ∈ t₂, entLEP a₂ z := (List.sorted_cons.mp hs₂).1
                have s_erase : List.Sorted entLEP (t₂.erase a) :=
                  List.Pairwise.sublist (List.erase_sublist a t₂) hs₂.of_cons
                have s₁ : List.Sorted entLEP (a₂ :: t₂.erase a) :=
                  List.sorted_cons.mpr
                    ⟨fun z hz => s_head₂ z (List.mem_of_mem_erase hz), s_erase⟩
                have s₂ : List.Sorted entLEP (a :: t₂.erase a) :=
                  List.sorted_cons.mpr
                    ⟨fun z hz =>
                      entLEP_trans hle1 (s_head₂ z (List.mem_of_mem_erase hz)),
                      s_erase⟩
                have hlen' : t.length ≤ n := by
                  simp only [List.length_cons] at hlen; omega
                have hlen₁ : (a₂ :: t₂.erase a).length ≤ n := by
                  rw [← hkey₁.length_eq]; exact hlen'
                have hlen₂ : t₂.length ≤ n := by
                  have h3 := hp.length_eq
                  simp only [List.length_cons] at h3 hlen
                  omega
                have e₁ : t.foldr step [] =
                    step a₂ ((t₂.erase a).foldr step []) := by
                  have h4 := ih t (a₂ :: t₂.erase a) hlen' hkey₁ hs.of_cons s₁
                  simpa using h4
                have e₂ : t₂.foldr step [] =
                    step a ((t₂.erase a).foldr step []) := by
                  have h4 := ih t₂ (a :: t₂.erase a) hlen₂ hkey₂ hs₂.of_cons s₂
                  simpa using h4
                have htouch : touchesP a a₂ := by
                  unfold touchesP entEnd
                  omega
                simp only [List.foldr_cons]
                rw [e₁, e₂, step_step a a₂ htouch, step_step a₂ a (touchesP_symm htouch),
                  mergeE_comm]

lemma sortedOff_of_sorted {l : List BC_playlist_entry}
    (h : List.Sorted entLEP l) : SortedOff l := by
  apply List.Pairwise.chain'
  apply h.imp
  intro a b hab
  unfold entLEP at hab
  unfold offLE
  omega

lemma coalesce_perm {A B : List BC_playlist_entry} (h : A.Perm B) :
    BC_coalesce_playlist A = BC_coalesce_playlist B := by
  unfold BC_coalesce_playlist BC_sort_playlist
  rw [coalBody_eq_foldr _ (sortedOff_of_sorted (List.sorted_insertionSort entLEP A)),
    coalBody_eq_foldr _ (sortedOff_of_sorted (List.sorted_insertionSort entLEP B))]
  apply foldr_perm_sorted ((List.insertionSort entLEP A).length)
  · exact le_refl _
  · exact ((List.perm_insertionSort entLEP A).trans h).trans
      (List.perm_insertionSort entLEP B).symm
  · exact List.sorted_insertionSort entLEP A
  · exact List.sorted_insertionSort entLEP B

/-! Structure of the merging pass's output. -/

lemma coalBody_sep {l : List BC_playlist_entry} (h : SortedOff l) :
    SepL (coalBody l) := by
  rw [coalBody_eq_foldr l h]
  exact (foldr_step_sep l h).1

lemma sep_pairwise {Y : List BC_playlist_entry} (h : SepL Y) :
    Y.Pairwise sepRel :=
  List.chain'_iff_pairwise.mp h

lemma sep_disjoint {Y : List BC_playlist_entry} (h : SepL Y)
    {y y' : BC_playlist_entry} (hy : y ∈ Y) (hy' : y' ∈ Y) (hne : y ≠ y') :
    sepRel y y' ∨ sepRel y' y := by
  have hp : Y.Pairwise fun u v => sepRel u v ∨ sepRel v u :=
    (sep_pairwise h).imp Or.inl
  exact hp.forall (fun u v huv => huv.symm) hy hy' hne

lemma sep_within_unique {Y : List BC_playlist_entry} (h : SepL Y)
    {y y' x : BC_playlist_entry} (hy : y ∈ Y) (hy' : y' ∈ Y)
    (h1 : within y x) (h2 : within y' x) : y = y' := by
  by_contra hne
  rcases sep_disjoint h hy hy' hne with h3 | h3 <;>
    (unfold within sepRel entEnd at *; omega)

lemma coalBody_mem_within : ∀ l : List BC_playlist_entry, ∀ x ∈ l,
    ∃ y ∈ coalBody l, within y x := by
  intro l
  induction l using coalBody_induction with
  | case1 => simp
  | case2 a =>
      intro x hx
      rw [List.mem_singleton] at hx
      subst hx
      exact ⟨x, by simp, within_refl x⟩
  | case3 a b rest ht ih =>
      intro x hx
      rw [coalBody_cons₂, if_pos ht]
      rcases List.mem_cons.mp hx with h1 | h1
      · subst h1
        obtain ⟨y, hy, hw⟩ := ih (mergeE x b) (List.mem_cons_self _ _)
        exact ⟨y, hy, within_trans hw (within_mergeE_left x b)⟩
      rcases List.mem_cons.mp h1 with h2 | h2
      · subst h2
        obtain ⟨y, hy, hw⟩ := ih (mergeE a x) (List.mem_cons_self _ _)
        exact ⟨y, hy, within_trans hw (within_mergeE_right a x)⟩
      · obtain ⟨y, hy, hw⟩ := ih x (List.mem_cons_of_mem _ h2)
        exact ⟨y, hy, hw⟩
  | case4 a b rest ht ih =>
      intro x hx
      rw [coalBody_cons₂, if_neg ht]
      rcases List.mem_cons.mp hx with h1 | h1
      · subst h1
        exact ⟨x, List.mem_cons_self _ _, within_refl x⟩
      · obtain ⟨y, hy, hw⟩ := ih x h1
        exact ⟨y, List.mem_cons_of_mem _ hy, hw⟩

lemma coalBody_wit : ∀ l : List BC_playlist_entry, SortedOff l →
    ∀ y ∈ coalBody l,
      (∃ w ∈ l, w.pce_offset = y.pce_offset ∧ within y w) ∧
      (∃ w ∈ l, entEnd w = entEnd y ∧ within y w) := by
  intro l
  induction l using coalBody_induction with
  | case1 => simp
  | case2 a =>
      intro _ y hy
      rw [coalBody_one, List.mem_singleton] at hy
      subst hy
      exact ⟨⟨y, by simp, rfl, within_refl y⟩, ⟨y, by simp, rfl, within_refl y⟩⟩
  | case3 a b rest ht ih =>
      intro hs y hy
      rw [coalBody_cons₂, if_pos ht] at hy
      have hab : offLE a b := (List.chain'_cons.mp hs).1
      obtain ⟨⟨w1, hw1, hoff1, hwin1⟩, ⟨w2, hw2, hend2, hwin2⟩⟩ :=
        ih (sortedOff_merge hs) y hy
      constructor
      · rcases List.mem_cons.mp hw1 with h1 | h1
        · subst h1
          refine ⟨a, List.mem_cons_self _ _, ?_,
            within_trans hwin1 (within_mergeE_left a b)⟩
          rw [← hoff1, mergeE_off]
          unfold offLE at hab
          omega
        · exact ⟨w1, by simp [h1], hoff1, hwin1⟩
      · rcases List.mem_cons.mp hw2 with h1 | h1
        · subst h1
          rw [entEnd_mergeE] at hend2
          rcases le_total (entEnd b) (entEnd a) with h2 | h2
          · refine ⟨a, List.mem_cons_self _ _, ?_,
              within_trans hwin2 (within_mergeE_left a b)⟩
            omega
          · refine ⟨b, by simp, ?_,
              within_trans hwin2 (within_mergeE_right a b)⟩
            omega
        · exact ⟨w2, by simp [h1], hend2, hwin2⟩
  | case4 a b rest ht ih =>
      intro hs y hy
      rw [coalBody_cons₂, if_neg ht] at hy
      rcases List.mem_cons.mp hy with h1 | h1
      · subst h1
        exact ⟨⟨y, List.mem_cons_self _ _, rfl, within_refl y⟩,
          ⟨y, List.mem_cons_self _ _, rfl, within_refl y⟩⟩
      · obtain ⟨⟨w1, hw1, hoff1, hwin1⟩, ⟨w2, hw2, hend2, hwin2⟩⟩ :=
          ih hs.tail y h1
        exact ⟨⟨w1, List.mem_cons_of_mem _ hw1, hoff1, hwin1⟩,
          ⟨w2, List.mem_cons_of_mem _ hw2, hend2, hwin2⟩⟩

lemma coalBody_cov : ∀ l : List BC_playlist_entry, ∀ p,
    coveredL (coalBody l) p ↔ coveredL l p := by
  intro l
  induction l using coalBody_induction with
  | case1 => simp
  | case2 a => simp
  | case3 a b rest ht ih =>
      intro p
      rw [coalBody_cons₂, if_pos ht, ih p, coveredL_cons, coveredL_cons,
        coveredL_cons, covers_mergeE ht, or_assoc]
  | case4 a b rest ht ih =>
      intro p
      rw [coalBody_cons₂, if_neg ht, coveredL_cons, coveredL_cons, ih p]

lemma coalBody_off_lb : ∀ l : List BC_playlist_entry, SortedOff l →
    ∀ c, l.head? = some c → ∀ y ∈ coalBody l, c.pce_offset ≤ y.pce_offset := by
  intro l
  induction l using coalBody_induction with
  | case1 => simp
  | case2 a =>
      intro _ c hc y hy
      simp at hc hy
      subst hc
      subst hy
      exact le_refl _
  | case3 a b rest ht ih =>
      intro hs c hc y hy
      simp only [List.head?_cons, Option.some.injEq] at hc
      subst hc
      rw [coalBody_cons₂, if_pos ht] at hy
      have h1 := ih (sortedOff_merge hs) (mergeE a b) rfl y hy
      have hab : offLE a b := (List.chain'_cons.mp hs).1
      rw [mergeE_off] at h1
      unfold offLE at hab
      omega
  | case4 a b rest ht ih =>
      intro hs c hc y hy
      simp only [List.head?_cons, Option.some.injEq] at hc
      subst hc
      rw [coalBody_cons₂, if_neg ht] at hy
      rcases List.mem_cons.mp hy with h1 | h1
      · subst h1; exact le_refl _
      · have h2 := ih hs.tail b rfl y h1
        have hab : offLE a b := (List.chain'_cons.mp hs).1
        unfold offLE at hab
        omega

lemma sortedOff_head_le {b : BC_playlist_entry} {rest : List BC_playlist_entry}
    (h : SortedOff (b :: rest)) :
    ∀ z ∈ rest, b.pce_offset ≤ z.pce_offset := by
  have hp := List.chain'_iff_pairwise.mp h
  intro z hz
  exact (List.pairwise_cons.mp hp).1 z hz

lemma coalBody_flags : ∀ l : List BC_playlist_entry, SortedOff l →
    ∀ y ∈ coalBody l,
      y.pce_flags = flagsOr (l.filter fun x => decide (within y x)) := by
  intro l
  induction l using coalBody_induction with
  | case1 => simp
  | case2 a =>
      intro _ y hy
      rw [coalBody_one, List.mem_singleton] at hy
      subst hy
      simp [List.filter_cons, within_refl y, Nat.or_zero]
  | case3 a b rest ht ih =>
      intro hs y hy
      rw [coalBody_cons₂, if_pos ht] at hy
      have h1 := ih (sortedOff_merge hs) y hy
      by_cases hm : within y (mergeE a b)
      · have hwa : within y a := within_trans hm (within_mergeE_left a b)
        have hwb : within y b := within_trans hm (within_mergeE_right a b)
        have e1 : (a :: b :: rest).filter (fun x => decide (within y x)) =
            a :: b :: rest.filter (fun x => decide (within y x)) := by
          simp [List.filter_cons, hwa, hwb]
        have e2 : (mergeE a b :: rest).filter (fun x => decide (within y x)) =
            mergeE a b :: rest.filter (fun x => decide (within y x)) := by
          simp [List.filter_cons, hm]
        rw [h1, e2, e1, flagsOr_cons, flagsOr_cons, flagsOr_cons, mergeE_flags,
          Nat.lor_assoc]
      · obtain ⟨yc, hyc, hwc⟩ :=
          coalBody_mem_within (mergeE a b :: rest) (mergeE a b)
            (List.mem_cons_self _ _)
        have hsepout : SepL (coalBody (mergeE a b :: rest)) :=
          coalBody_sep (sortedOff_merge hs)
        have hne : yc ≠ y := fun h => hm (h ▸ hwc)
        have hwa : ¬ within y a := by
          intro hwa
          exact hne (sep_within_unique hsepout hyc hy
            (within_trans hwc (within_mergeE_left a b)) hwa)
        have hwb : ¬ within y b := by
          intro hwb
          exact hne (sep_within_unique hsepout hyc hy
            (within_trans hwc (within_mergeE_right a b)) hwb)
        have e1 : (a :: b :: rest).filter (fun x => decide (within y x)) =
            rest.filter (fun x => decide (within y x)) := by
          simp [List.filter_cons, hwa, hwb]
        have e2 : (mergeE a b :: rest).filter (fun x => decide (within y x)) =
            rest.filter (fun x => decide (within y x)) := by
          simp [List.filter_cons, hm]
        rw [h1, e2, e1]
  | case4 a b rest ht ih =>
      intro hs y hy
      rw [coalBody_cons₂, if_neg ht] at hy
      have hab : offLE a b := (List.chain'_cons.mp hs).1
      have hgap : entEnd a < b.pce_offset := by
        unfold touchesP at ht
        unfold offLE at hab
        unfold entEnd at *
        omega
      rcases List.mem_cons.mp hy with h1 | h1
      · subst h1
        have hwb : ¬ within y b := by
          unfold within
          unfold entEnd at *
          omega
        have hrest : rest.filter (fun x => decide (within y x)) = [] := by
          rw [List.filter_eq_nil_iff]
          intro z hz
          have h2 := sortedOff_head_le hs.tail z hz
          simp only [decide_eq_true_eq]
          unfold within
          unfold entEnd at *
          omega
        simp [List.filter_cons, within_refl y, hwb, hrest, Nat.or_zero]
      · have h2 := ih hs.tail y h1
        have hlb := coalBody_off_lb (b :: rest) hs.tail b rfl y h1
        have hwa : ¬ within y a := by
          unfold within
          unfold entEnd at *
          omega
        have e1 : (a :: b :: rest).filter (fun x => decide (within y x)) =
            (b :: rest).filter (fun x => decide (within y x)) := by
          simp [List.filter_cons, hwa]
        rw [h2, e1]

lemma flagsOr_perm {l l2 : List BC_playlist_entry} (h : l.Perm l2) :
    flagsOr l = flagsOr l2 := by
  induction h with
  | nil => rfl
  | cons x h ih => simp [flagsOr_cons, ih]
  | swap x y l =>
      simp only [flagsOr_cons]
      rw [← Nat.lor_assoc, ← Nat.lor_assoc, Nat.lor_comm y.pce_flags x.pce_flags]
  | trans h1 h2 ih1 ih2 => exact ih1.trans ih2

/-! From the merging pass to `BC_coalesce_playlist` itself. -/

lemma sorted_sort (X : List BC_playlist_entry) :
    List.Sorted entLEP (BC_sort_playlist X) :=
  List.sorted_insertionSort entLEP X

lemma sort_perm (X : List BC_playlist_entry) : (BC_sort_playlist X).Perm X :=
  List.perm_insertionSort entLEP X

lemma coalesce_sepL (X : List BC_playlist_entry) :
    SepL (BC_coalesce_playlist X) :=
  coalBody_sep (sortedOff_of_sorted (sorted_sort X))

lemma coalesce_mem_within (X : List BC_playlist_entry) :
    ∀ x ∈ X, ∃ y ∈ BC_coalesce_playlist X, within y x := by
  intro x hx
  exact coalBody_mem_within (BC_sort_playlist X) x ((sort_perm X).mem_iff.mpr hx)

lemma coalesce_wit (X : List BC_playlist_entry) :
    ∀ y ∈ BC_coalesce_playlist X,
      (∃ x ∈ groupOf X y, x.pce_offset = y.pce_offset) ∧
      (∃ x ∈ groupOf X y, entEnd x = entEnd y) := by
  intro y hy
  obtain ⟨⟨w1, hw1, hoff1, hwin1⟩, ⟨w2, hw2, hend2, hwin2⟩⟩ :=
    coalBody_wit (BC_sort_playlist X) (sortedOff_of_sorted (sorted_sort X)) y hy
  exact ⟨⟨w1, mem_groupOf.mpr ⟨(sort_perm X).mem_iff.mp hw1, hwin1⟩, hoff1⟩,
    ⟨w2, mem_groupOf.mpr ⟨(sort_perm X).mem_iff.mp hw2, hwin2⟩, hend2⟩⟩

lemma coalesce_flags (X : List BC_playlist_entry) :
    ∀ y ∈ BC_coalesce_playlist X, y.pce_flags = flagsOr (groupOf X y) := by
  intro y hy
  have h1 := coalBody_flags (BC_sort_playlist X)
    (sortedOff_of_sorted (sorted_sort X)) y hy
  rw [h1]
  exact flagsOr_perm (((sort_perm X)).filter _)

lemma coalesce_cov (X : List BC_playlist_entry) (p : Nat) :
    coveredL (BC_coalesce_playlist X) p ↔ coveredL X p := by
  unfold BC_coalesce_playlist
  rw [coalBody_cov (BC_sort_playlist X) p]
  unfold coveredL
  constructor
  · rintro ⟨e, he, hc⟩
    exact ⟨e, (sort_perm X).mem_iff.mp he, hc⟩
  · rintro ⟨e, he, hc⟩
    exact ⟨e, (sort_perm X).mem_iff.mpr he, hc⟩

lemma coalesce_group_cov (X : List BC_playlist_entry) :
    ∀ y ∈ BC_coalesce_playlist X, ∀ p, y.pce_offset ≤ p → p < entEnd y →
      ∃ x ∈ groupOf X y, covers x p := by
  intro y hy p h1 h2
  have h3 : coveredL X p := (coalesce_cov X p).mp ⟨y, hy, h1, h2⟩
  obtain ⟨x, hx, hcx⟩ := h3
  obtain ⟨yc, hyc, hwc⟩ := coalesce_mem_within X x hx
  have heq : yc = y := by
    by_contra hne
    rcases sep_disjoint (coalesce_sepL X) hyc hy hne with h4 | h4 <;>
      (unfold within sepRel covers entEnd at *; omega)
  subst heq
  exact ⟨x, mem_groupOf.mpr ⟨hx, hwc⟩, hcx⟩

lemma coalesce_max (X : List BC_playlist_entry) :
    ∀ y ∈ BC_coalesce_playlist X, ∀ x ∈ X, ¬ within y x → ¬ touchesP x y := by
  intro y hy x hx hnw ht
  obtain ⟨yc, hyc, hwc⟩ := coalesce_mem_within X x hx
  have hne : yc ≠ y := fun h => hnw (h ▸ hwc)
  rcases sep_disjoint (coalesce_sepL X) hyc hy hne with h4 | h4 <;>
    (unfold within sepRel touchesP entEnd at *; omega)

lemma sorted_entLEP_of_sepL {Y : List BC_playlist_entry} (h : SepL Y) :
    List.Sorted entLEP Y := by
  apply (sep_pairwise h).imp
  intro a b hab
  unfold sepRel entEnd at hab
  unfold entLEP
  omega

lemma coalBody_of_sep : ∀ l : List BC_playlist_entry, SepL l → coalBody l = l := by
  intro l
  induction l using coalBody_induction with
  | case1 => intro _; simp
  | case2 a => intro _; simp
  | case3 a b rest ht ih =>
      intro h
      have h1 : sepRel a b := (List.chain'_cons.mp h).1
      unfold sepRel at h1
      unfold touchesP at ht
      omega
  | case4 a b rest ht ih =>
      intro h
      rw [coalBody_cons₂, if_neg ht, ih h.tail]

lemma coalesce_of_sep {l : List BC_playlist_entry} (h : SepL l) :
    BC_coalesce_playlist l = l := by
  unfold BC_coalesce_playlist BC_sort_playlist
  rw [(sorted_entLEP_of_sepL h).insertionSort_eq]
  exact coalBody_of_sep l h

lemma coalesce_idem (X : List BC_playlist_entry) :
    BC_coalesce_playlist (BC_coalesce_playlist X) = BC_coalesce_playlist X :=
  coalesce_of_sep (coalesce_sepL X)

lemma coalesce_sort_eq (l : List BC_playlist_entry) :
    BC_coalesce_playlist (BC_sort_playlist l) = BC_coalesce_playlist l := by
  unfold BC_coalesce_playlist BC_sort_playlist
  rw [(List.sorted_insertionSort entLEP l).insertionSort_eq]

lemma coalesce_pair (a b : BC_playlist_entry) (hf : a.pce_flags = b.pce_flags)
    (ht : touchesP a b) :
    BC_coalesce_playlist [a, b] =
      [⟨min a.pce_offset b.pce_offset,
        max (entEnd a) (entEnd b) - min a.pce_offset b.pce_offset,
        a.pce_flags⟩] := by
  unfold BC_coalesce_playlist BC_sort_playlist
  have hsort : List.insertionSort entLEP [a, b] =
      if entLEP a b then [a, b] else [b, a] := by
    simp [List.insertionSort, List.orderedInsert]
  rw [hsort]
  split
  · rw [coalBody_cons₂, if_pos ht, coalBody_one]
    unfold mergeE
    rw [hf, Nat.or_self]
  · rw [coalBody_cons₂, if_pos (touchesP_symm ht), coalBody_one, mergeE_comm b a]
    unfold mergeE
    rw [hf, Nat.or_self]

/-! The error taxonomy, the capped operations, the playlist store, the
history conversion and the cache-engine state machine.  All of these are
modelled from the spec: only their declarations (and the constants they
use) appear in `BootCache.h`. -/

/-- Error taxonomy of spec section 7. -/
inductive BCErr where
  | VersionMismatch
  | InvalidState
  | InvalidArgument
  | TooManyEntries
  | Corrupt
  | NotFound

/-- Modelled from the spec: the cap-checked entry point of
`BC_sort_playlist` (spec 4.1: all three operations fail with
`TooManyEntries` beyond the 100000-entry cap, producing no output). -/
def BC_sort_checked (X : List BC_playlist_entry) :
    Except BCErr (List BC_playlist_entry) :=
  if X.length > BC_MAXENTRIES then .error .TooManyEntries
  else .ok (BC_sort_playlist X)

/-- Modelled from the spec: the cap-checked entry point of
`BC_coalesce_playlist`. -/
def BC_coalesce_checked (X : List BC_playlist_entry) :
    Except BCErr (List BC_playlist_entry) :=
  if X.length > BC_MAXENTRIES then .error .TooManyEntries
  else .ok (BC_coalesce_playlist X)

/-- Modelled from the spec: the cap-checked entry point of
`BC_merge_playlists`: the inputs and the would-be result are checked
against the cap before anything is produced. -/
def BC_merge_checked (A B : List BC_playlist_entry) :
    Except BCErr (List BC_playlist_entry) :=
  if A.length > BC_MAXENTRIES ∨ B.length > BC_MAXENTRIES ∨
      A.length + B.length > BC_MAXENTRIES then .error .TooManyEntries
  else .ok (BC_merge_playlists A B)

/-- Modelled from the spec: the persisted playlist format of spec
section 6 — a header (magic, version, entry count) followed by the
fixed-layout `{offset, length, flags}` records in file order.  The header
constants' concrete values are not in the repository's files. -/
structure PlaylistFileImage where
  magic : Nat
  version : Nat
  entry_count : Nat
  records : List (Nat × Nat × Nat)

/-- Modelled from the spec: the playlist file's header magic (its value is
not in the repository's files; only its presence is specified). -/
def PLAYLIST_FILE_MAGIC : Nat := 0xCAC8E

/-- Modelled from the spec: the playlist file's header version. -/
def PLAYLIST_FILE_VERSION : Nat := 1

/-- Modelled from the spec: the body of `BC_write_playlist` is not among
the repository's files.  Spec 4.2 `save`: fails with `TooManyEntries`
before writing anything when over the cap; otherwise writes header and
records. -/
def BC_write_playlist (P : List BC_playlist_entry) :
    Except BCErr PlaylistFileImage :=
  if P.length > BC_MAXENTRIES then .error .TooManyEntries
  else .ok ⟨PLAYLIST_FILE_MAGIC, PLAYLIST_FILE_VERSION, P.length,
    P.map fun x => (x.pce_offset, x.pce_length, x.pce_flags)⟩

/-- Modelled from the spec: the body of `BC_read_playlist` is not among
the repository's files.  Spec 4.2 `load`: `Corrupt` when the stored record
count or structure is inconsistent, `TooManyEntries` over the cap; the
returned list is not implicitly normalized. -/
def BC_read_playlist (f : PlaylistFileImage) :
    Except BCErr (List BC_playlist_entry) :=
  if f.magic ≠ PLAYLIST_FILE_MAGIC ∨ f.version ≠ PLAYLIST_FILE_VERSION then
    .error .Corrupt
  else if f.entry_count ≠ f.records.length then .error .Corrupt
  else if f.entry_count > BC_MAXENTRIES then .error .TooManyEntries
  else .ok (f.records.map fun p => ⟨p.1, p.2.1, p.2.2⟩)

/-- Modelled from the spec: the body of `BC_convert_history` is not among
the repository's files.  Spec 4.3 `toPlaylist`: keep only `Miss` and `Hit`
entries, discard `Tag` and `Write` entirely, set the `Prefetch` flag on
every resulting extent, normalize with coalesce. -/
def BC_convert_history (hist : List BC_history_entry) :
    List BC_playlist_entry :=
  BC_coalesce_playlist
    ((hist.filter fun h =>
        h.he_flags == BC_HE_MISS || h.he_flags == BC_HE_HIT).map
      fun h => ⟨h.he_offset, h.he_length, PCE_PREFETCH⟩)

/-- Statistics, from `BootCache.h` lines 96-136.  The `timeval` fields are
embedded as `Nat` clock readings. -/
structure BC_statistics where
  ss_blocksize : Nat
  ss_initiated_reads : Nat
  ss_read_blocks : Nat
  ss_read_errors : Nat
  ss_error_discards : Nat
  ss_cache_start : Nat
  ss_pfetch_stop : Nat
  ss_read_stop : Nat
  ss_cache_stop : Nat
  ss_wait_time : Nat
  ss_strategy_calls : Nat
  ss_strategy_nonread : Nat
  ss_strategy_bypassed : Nat
  ss_strategy_bypass_active : Nat
  ss_strategy_blocked : Nat
  ss_total_extents : Nat
  ss_extent_lookups : Nat
  ss_extent_hits : Nat
  ss_hit_blkmissing : Nat
  ss_requested_blocks : Nat
  ss_hit_blocks : Nat
  ss_write_discards : Nat
  ss_spurious_blocks : Nat
  ss_spurious_pages : Nat
  ss_history_clusters : Nat
  ss_cache_flags : Nat

/-- Modelled from the spec: the engine's externally visible lifecycle
(spec 4.5); the transient `Starting`/`Stopping` phases are internal to the
atomic control operations. -/
inductive EngineState where
  | Idle
  | Active
  | Stopped
  deriving DecidableEq

/-- Modelled from the spec: the history recorder (spec 4.3) — an
append-only log that degrades to a `truncated` state on allocation
exhaustion, after which further records are dropped. -/
structure Recorder where
  entries : List BC_history_entry
  truncated : Bool
  capacity : Nat

/-- Modelled from the spec: `record` appends one entry; on exhaustion it
switches to the truncated state and drops the entry (spec 4.3). -/
def Recorder.record (r : Recorder) (h : BC_history_entry) : Recorder :=
  if r.truncated then r
  else if r.entries.length < r.capacity then
    { r with entries := r.entries ++ [h] }
  else { r with truncated := true }

/-- Modelled from the spec: the cache engine (spec 4.5) — state machine,
session blocksize, extent index with per-extent prefetch residency,
history recorder and statistics. -/
structure CacheEngine where
  state : EngineState
  blocksize : Nat
  extents : List (BC_playlist_entry × Bool)
  recorder : Recorder
  stats : BC_statistics

/-- An inbound I/O request seen by the interception path. -/
structure IORequest where
  isRead : Bool
  offset : Nat
  length : Nat

/-- Modelled from the spec: fresh statistics at `Start` — counters zero,
device blocksize and extent count of the new session recorded. -/
def initStats (bsize nextents : Nat) : BC_statistics :=
  ⟨bsize, 0, 0, 0, 0, 0, 0, 0, 0, 0, 0, 0, 0, 0, 0, nextents,
   0, 0, 0, 0, 0, 0, 0, 0, 0, 0⟩

/-- Modelled from the spec: size in bytes of one serialized history entry
(two u64 fields and the flags word); the concrete value is not in the
repository's files. -/
def BC_history_entry_size : Nat := 20

/-- Modelled from the spec: what `Stop` reports in `bc_length` — the
pending history size in bytes, or 0 if the history was truncated
(`BootCache.h` lines 66-72). -/
def histReturnBytes (r : Recorder) : Nat :=
  if r.truncated then 0 else r.entries.length * BC_history_entry_size

/-- Modelled from the spec: `Stop` stamps the prefetch-stop, read-stop and
cache-stop timestamps. -/
def stampStop (s : BC_statistics) (now : Nat) : BC_statistics :=
  { s with ss_pfetch_stop := now, ss_read_stop := now, ss_cache_stop := now }

/-- Modelled from the spec: the body of `BC_start` is not among the
repository's files.  Spec 4.5 `Start`: valid only from `Idle`;
`InvalidArgument` on zero blocksize; `TooManyEntries` beyond the cap;
otherwise normalize the playlist (sort + coalesce), build the extent
index, reset statistics and recorder, move to `Active`. -/
def BC_start (e : CacheEngine) (bsize : Nat) (pl : List BC_playlist_entry) :
    Except BCErr CacheEngine :=
  if e.state ≠ EngineState.Idle then .error .InvalidState
  else if bsize = 0 then .error .InvalidArgument
  else if pl.length > BC_MAXENTRIES then .error .TooManyEntries
  else
    .ok { state := .Active, blocksize := bsize,
          extents := (BC_coalesce_playlist pl).map fun x => (x, false),
          recorder := ⟨[], false, e.recorder.capacity⟩,
          stats := initStats bsize (BC_coalesce_playlist pl).length }

/-- Modelled from the spec: the body of `BC_stop` is not among the
repository's files.  Spec 4.5 `Stop`: valid only from `Active`; stamps the
stop timestamps, reports the pending history size (0 if truncated), leaves
the recorder's content in place, moves to `Stopped`. -/
def BC_stop (e : CacheEngine) (now : Nat) :
    Except BCErr (Nat × CacheEngine) :=
  if e.state = EngineState.Active then
    .ok (histReturnBytes e.recorder,
      { e with state := .Stopped, stats := stampStop e.stats now })
  else .error .InvalidState

/-- Modelled from the spec: the history control operation (`BC_OP_HISTORY`
/ spec 4.5 `History`): valid only from `Stopped`; returns the recorded
sequence, clears the recorder and returns the engine to `Idle`. -/
def BC_history_op (e : CacheEngine) :
    Except BCErr (List BC_history_entry × CacheEngine) :=
  if e.state = EngineState.Stopped then
    .ok (e.recorder.entries,
      { e with state := .Idle,
               recorder := ⟨[], false, e.recorder.capacity⟩ })
  else .error .InvalidState

/-- Modelled from the spec: the body of `BC_fetch_statistics` is not among
the repository's files.  Spec 4.5 `Stats`: valid from any state, returns
an immutable snapshot, mutates nothing. -/
def BC_fetch_statistics (e : CacheEngine) :
    Except BCErr (BC_statistics × CacheEngine) :=
  .ok (e.stats, e)

/-- Modelled from the spec: append one history entry, maintaining the
allocated-cluster statistic when a fresh cluster is started. -/
def recordEntry (e : CacheEngine) (h : BC_history_entry) : CacheEngine :=
  { e with
    recorder := e.recorder.record h,
    stats := { e.stats with
      ss_history_clusters := e.stats.ss_history_clusters +
        (if e.recorder.truncated = false ∧
            e.recorder.entries.length < e.recorder.capacity ∧
            e.recorder.entries.length % BC_PLC_CHUNK = 0 then 1 else 0) } }

/-- Modelled from the spec: the body of `BC_tag_history` is not among the
repository's files.  Spec 4.5 `Tag`: valid only from `Active`; appends a
`Tag` entry with no offset/length payload. -/
def BC_tag_history (e : CacheEngine) : Except BCErr CacheEngine :=
  if e.state = EngineState.Active then
    .ok (recordEntry e ⟨0, 0, BC_HE_TAG⟩)
  else .error .InvalidState

/-- The request's whole byte range is inside extent `x`. -/
def extentContains (x : BC_playlist_entry) (off len : Nat) : Prop :=
  x.pce_offset ≤ off ∧ off + len ≤ entEnd x

instance (x : BC_playlist_entry) (off len : Nat) :
    Decidable (extentContains x off len) :=
  inferInstanceAs (Decidable (x.pce_offset ≤ off ∧ off + len ≤ entEnd x))

/-- The request's half-open byte range meets extent `x`. -/
def extentOverlaps (x : BC_playlist_entry) (off len : Nat) : Prop :=
  x.pce_offset < off + len ∧ off < entEnd x

instance (x : BC_playlist_entry) (off len : Nat) :
    Decidable (extentOverlaps x off len) :=
  inferInstanceAs (Decidable (x.pce_offset < off + len ∧ off < entEnd x))

/-- First extent of the index meeting the requested range, with its
residency flag. -/
def lookupExtent (l : List (BC_playlist_entry × Bool)) (off len : Nat) :
    Option (BC_playlist_entry × Bool) :=
  l.find? fun p => decide (extentOverlaps p.1 off len)

/-- Modelled from the spec: the interception path (spec 4.5).  Not
`Active`: bypass, counted.  A write: bypass, recorded as `Write`.  A read:
looked up against the extent index — full hit from a resident extent,
blocked-then-degraded partial hit, or miss, with the corresponding
counters and history record. -/
def intercept (e : CacheEngine) (r : IORequest) : CacheEngine :=
  if e.state ≠ EngineState.Active then
    { e with stats := { e.stats with
        ss_strategy_calls := e.stats.ss_strategy_calls + 1,
        ss_strategy_bypassed := e.stats.ss_strategy_bypassed + 1 } }
  else if r.isRead = false then
    recordEntry
      { e with stats := { e.stats with
          ss_strategy_calls := e.stats.ss_strategy_calls + 1,
          ss_strategy_nonread := e.stats.ss_strategy_nonread + 1,
          ss_strategy_bypassed := e.stats.ss_strategy_bypassed + 1,
          ss_write_discards :=
            e.stats.ss_write_discards + r.length / e.blocksize } }
      ⟨r.offset, r.length, BC_HE_WRITE⟩
  else
    match lookupExtent e.extents r.offset r.length with
    | none =>
        recordEntry
          { e with stats := { e.stats with
              ss_strategy_calls := e.stats.ss_strategy_calls + 1,
              ss_extent_lookups := e.stats.ss_extent_lookups + 1,
              ss_strategy_bypass_active :=
                e.stats.ss_strategy_bypass_active + 1,
              ss_requested_blocks :=
                e.stats.ss_requested_blocks + r.length / e.blocksize } }
          ⟨r.offset, r.length, BC_HE_MISS⟩
    | some (x, res) =>
        if res = true ∧ extentContains x r.offset r.length then
          recordEntry
            { e with stats := { e.stats with
                ss_strategy_calls := e.stats.ss_strategy_calls + 1,
                ss_extent_lookups := e.stats.ss_extent_lookups + 1,
                ss_extent_hits := e.stats.ss_extent_hits + 1,
                ss_hit_blocks :=
                  e.stats.ss_hit_blocks + r.length / e.blocksize,
                ss_requested_blocks :=
                  e.stats.ss_requested_blocks + r.length / e.blocksize } }
            ⟨r.offset, r.length, BC_HE_HIT⟩
        else
          recordEntry
            { e with stats := { e.stats with
                ss_strategy_calls := e.stats.ss_strategy_calls + 1,
                ss_extent_lookups := e.stats.ss_extent_lookups + 1,
                ss_strategy_blocked := e.stats.ss_strategy_blocked + 1,
                ss_wait_time := e.stats.ss_wait_time + 1,
                ss_hit_blkmissing := e.stats.ss_hit_blkmissing + 1,
                ss_requested_blocks :=
                  e.stats.ss_requested_blocks + r.length / e.blocksize } }
            ⟨r.offset, r.length, BC_HE_MISS⟩

/-- Modelled from the spec: a background prefetch worker finishes reading
extent `i` into the cache; its blocks become eligible for hits.  Inert
once the engine is no longer `Active` (Stop cancels prefetch). -/
def prefetchComplete (e : CacheEngine) (i : Nat) : CacheEngine :=
  if e.state = EngineState.Active then
    match e.extents[i]? with
    | some (x, _) =>
        { e with
          extents := e.extents.set i (x, true),
          stats := { e.stats with
            ss_initiated_reads := e.stats.ss_initiated_reads + 1,
            ss_read_blocks :=
              e.stats.ss_read_blocks + x.pce_length / e.blocksize } }
    | none => e
  else e

/-- Modelled from the spec: a prefetch read of extent `i` fails; error and
discard counters grow, the extent is left non-resident, the session
continues degraded (spec section 7). -/
def prefetchError (e : CacheEngine) (i : Nat) : CacheEngine :=
  if e.state = EngineState.Active then
    match e.extents[i]? with
    | some (x, _) =>
        { e with stats := { e.stats with
            ss_read_errors := e.stats.ss_read_errors + 1,
            ss_error_discards :=
              e.stats.ss_error_discards + x.pce_length / e.blocksize } }
    | none => e
  else e

/-- Every counter field of the snapshot is no smaller in `t` than in `s`.
Covers the counting and accumulating fields; the session constants
(blocksize), the stop timestamps and the current-flags word are status
fields, not counters. -/
def statsLE (s t : BC_statistics) : Prop :=
  s.ss_initiated_reads ≤ t.ss_initiated_reads ∧
  s.ss_read_blocks ≤ t.ss_read_blocks ∧
  s.ss_read_errors ≤ t.ss_read_errors ∧
  s.ss_error_discards ≤ t.ss_error_discards ∧
  s.ss_wait_time ≤ t.ss_wait_time ∧
  s.ss_strategy_calls ≤ t.ss_strategy_calls ∧
  s.ss_strategy_nonread ≤ t.ss_strategy_nonread ∧
  s.ss_strategy_bypassed ≤ t.ss_strategy_bypassed ∧
  s.ss_strategy_bypass_active ≤ t.ss_strategy_bypass_active ∧
  s.ss_strategy_blocked ≤ t.ss_strategy_blocked ∧
  s.ss_total_extents ≤ t.ss_total_extents ∧
  s.ss_extent_lookups ≤ t.ss_extent_lookups ∧
  s.ss_extent_hits ≤ t.ss_extent_hits ∧
  s.ss_hit_blkmissing ≤ t.ss_hit_blkmissing ∧
  s.ss_requested_blocks ≤ t.ss_requested_blocks ∧
  s.ss_hit_blocks ≤ t.ss_hit_blocks ∧
  s.ss_write_discards ≤ t.ss_write_discards ∧
  s.ss_spurious_blocks ≤ t.ss_spurious_blocks ∧
  s.ss_spurious_pages ≤ t.ss_spurious_pages ∧
  s.ss_history_clusters ≤ t.ss_history_clusters

/-- All counter fields are zero (a freshly reset snapshot). -/
def statsCountersZero (s : BC_statistics) : Prop :=
  s.ss_initiated_reads = 0 ∧ s.ss_read_blocks = 0 ∧ s.ss_read_errors = 0 ∧
  s.ss_error_discards = 0 ∧ s.ss_wait_time = 0 ∧ s.ss_strategy_calls = 0 ∧
  s.ss_strategy_nonread = 0 ∧ s.ss_strategy_bypassed = 0 ∧
  s.ss_strategy_bypass_active = 0 ∧ s.ss_strategy_blocked = 0 ∧
  s.ss_extent_lookups = 0 ∧ s.ss_extent_hits = 0 ∧
  s.ss_hit_blkmissing = 0 ∧ s.ss_requested_blocks = 0 ∧
  s.ss_hit_blocks = 0 ∧ s.ss_write_discards = 0 ∧
  s.ss_spurious_blocks = 0 ∧ s.ss_spurious_pages = 0 ∧
  s.ss_history_clusters = 0

/-- Modelled from the spec: one step of the engine inside a session —
any control operation other than `Start` (`Stop`, `History`, `Tag`,
`Stats`), one interception-path invocation, or one prefetch-worker
completion or error. -/
inductive SessStep : CacheEngine → CacheEngine → Prop where
  | interceptStep (e : CacheEngine) (r : IORequest) : SessStep e (intercept e r)
  | stopStep (e : CacheEngine) (now len : Nat) (f : CacheEngine) :
      BC_stop e now = .ok (len, f) → SessStep e f
  | historyStep (e : CacheEngine) (out : List BC_history_entry)
      (f : CacheEngine) : BC_history_op e = .ok (out, f) → SessStep e f
  | tagStep (e f : CacheEngine) : BC_tag_history e = .ok f → SessStep e f
  | statsStep (e : CacheEngine) : SessStep e e
  | prefetchOkStep (e : CacheEngine) (i : Nat) :
      SessStep e (prefetchComplete e i)
  | prefetchErrStep (e : CacheEngine) (i : Nat) :
      SessStep e (prefetchError e i)

/-- Command structure, from `BootCache.h` lines 15-36.  The user-space
data pointer `bc_data` is outside the model; `bc_length` is the transfer
length. -/
structure BC_command where
  bc_magic : Int
  bc_opcode : Int
  bc_param : Int
  bc_length : Nat

/-- Modelled from the spec: the dispatcher's version check (spec 6: the
magic must equal the engine's expected version constant, else the call
fails with a version-mismatch error without side effects).  The constants
compared against are `BootCache.h` lines 18-20. -/
def checkCommandMagic (c : BC_command) : Except BCErr Unit :=
  if c.bc_magic = BC_MAGIC then .ok () else .error .VersionMismatch

/-! The claims. -/

lemma sortedOff_of_sepL {l : List BC_playlist_entry} (h : SepL l) :
    SortedOff l := by
  apply List.Chain'.imp _ h
  intro a b hab
  unfold sepRel entEnd at hab
  unfold offLE
  omega

instance : DecidableRel sepRel := fun a b =>
  inferInstanceAs (Decidable (entEnd a < b.pce_offset))

instance : DecidableRel offLE := fun a b =>
  inferInstanceAs (Decidable (a.pce_offset ≤ b.pce_offset))

instance (l : List BC_playlist_entry) : Decidable (SepL l) :=
  inferInstanceAs (Decidable (List.Chain' sepRel l))

instance (l : List BC_playlist_entry) : Decidable (SortedOff l) :=
  inferInstanceAs (Decidable (List.Chain' offLE l))

/-- C1: for every input list of extents (not necessarily sorted),
`BC_coalesce_playlist` returns a list sorted ascending by offset and
pairwise-disjoint; every input extent is accounted for by exactly one
output entry; each output entry spans exactly `[min(offset),
max(offset+length))` of its group of input extents, that group is
touching-or-overlapping-connected (its span is gaplessly covered), it is
maximal (inputs outside the group do not even touch the span), and the
output flags are the bitwise union of the group's flags; in particular two
touching-or-overlapping entries with the same flag set coalesce to the
single spanning extent. -/
theorem claim_C1_coalesce :
    (∀ X : List BC_playlist_entry,
      SortedOff (BC_coalesce_playlist X) ∧
      SepL (BC_coalesce_playlist X) ∧
      (∀ x ∈ X, ∃ y ∈ BC_coalesce_playlist X, within y x) ∧
      (∀ x y z, y ∈ BC_coalesce_playlist X → z ∈ BC_coalesce_playlist X →
        within y x → within z x → y = z) ∧
      (∀ y ∈ BC_coalesce_playlist X,
        (∀ x ∈ groupOf X y, within y x) ∧
        (∃ x ∈ groupOf X y, x.pce_offset = y.pce_offset) ∧
        (∃ x ∈ groupOf X y, entEnd x = entEnd y) ∧
        (∀ p, y.pce_offset ≤ p → p < entEnd y →
          ∃ x ∈ groupOf X y, covers x p) ∧
        (∀ x ∈ X, ¬ within y x → ¬ touchesP x y) ∧
        y.pce_flags = flagsOr (groupOf X y))) ∧
    (∀ a b : BC_playlist_entry, a.pce_flags = b.pce_flags → touchesP a b →
      BC_coalesce_playlist [a, b] =
        [⟨min a.pce_offset b.pce_offset,
          max (entEnd a) (entEnd b) - min a.pce_offset b.pce_offset,
          a.pce_flags⟩]) := by
  constructor
  · intro X
    refine ⟨sortedOff_of_sepL (coalesce_sepL X), coalesce_sepL X,
      coalesce_mem_within X,
      fun x y z hy hz h1 h2 => sep_within_unique (coalesce_sepL X) hy hz h1 h2,
      ?_⟩
    intro y hy
    exact ⟨fun x hx => (mem_groupOf.mp hx).2,
      (coalesce_wit X y hy).1, (coalesce_wit X y hy).2,
      coalesce_group_cov X y hy, coalesce_max X y hy,
      coalesce_flags X y hy⟩
  · exact coalesce_pair

/-- C2: coalescing is idempotent: for every extent list `X`,
`coalesce (coalesce X) = coalesce X`. -/
theorem claim_C2_coalesce_idempotent :
    ∀ X : List BC_playlist_entry,
      BC_coalesce_playlist (BC_coalesce_playlist X) = BC_coalesce_playlist X :=
  coalesce_idem

/-- C3: for all extent lists `A` and `B`, `merge(A, B)` equals
`coalesce (sort (A ++ B))`, and merge is commutative. -/
theorem claim_C3_merge :
    ∀ A B : List BC_playlist_entry,
      BC_merge_playlists A B =
        BC_coalesce_playlist (BC_sort_playlist (A ++ B)) ∧
      BC_merge_playlists A B = BC_merge_playlists B A := by
  intro A B
  constructor
  · unfold BC_merge_playlists
    exact (coalesce_sort_eq (A ++ B)).symm
  · unfold BC_merge_playlists
    exact coalesce_perm List.perm_append_comm

/-- C4: every extent list with more than `BC_MAXENTRIES` (100000) entries
is rejected by sort, coalesce, merge (in either argument position) and the
playlist writer with `TooManyEntries`; no output is produced (the error
carries none) and, the operations being pure, nothing else is mutated. -/
theorem claim_C4_cap :
    ∀ (X B : List BC_playlist_entry), X.length > BC_MAXENTRIES →
      BC_sort_checked X = .error .TooManyEntries ∧
      BC_coalesce_checked X = .error .TooManyEntries ∧
      BC_merge_checked X B = .error .TooManyEntries ∧
      BC_merge_checked B X = .error .TooManyEntries ∧
      BC_write_playlist X = .error .TooManyEntries := by
  intro X B h
  refine ⟨?_, ?_, ?_, ?_, ?_⟩ <;>
    simp [BC_sort_checked, BC_coalesce_checked, BC_merge_checked,
      BC_write_playlist, h]

/-- An extent list one over the cap. -/
def overCapList : List BC_playlist_entry := List.replicate 100001 ⟨0, 1, 0⟩

theorem claim_C4_cap_witness :
    BC_sort_checked overCapList = .error .TooManyEntries ∧
    BC_coalesce_checked overCapList = .error .TooManyEntries ∧
    BC_merge_checked overCapList [] = .error .TooManyEntries ∧
    BC_merge_checked [] overCapList = .error .TooManyEntries ∧
    BC_write_playlist overCapList = .error .TooManyEntries :=
  claim_C4_cap overCapList []
    (by unfold overCapList BC_MAXENTRIES; rw [List.length_replicate]; omega)

lemma flagsOr_const (f : Nat) :
    ∀ l : List BC_playlist_entry, l ≠ [] →
      (∀ x ∈ l, x.pce_flags = f) → flagsOr l = f := by
  intro l
  induction l with
  | nil => intro h; exact absurd rfl h
  | cons x xs ih =>
      intro _ hall
      cases xs with
      | nil =>
          rw [flagsOr_cons, flagsOr_nil, Nat.or_zero]
          exact hall x (List.mem_cons_self _ _)
      | cons y ys =>
          rw [flagsOr_cons, ih (by simp)
            (fun z hz => hall z (List.mem_cons_of_mem _ hz)),
            hall x (List.mem_cons_self _ _), Nat.or_self]

/-- C5: the history-to-playlist conversion keeps exactly the `Miss` and
`Hit` entries, discards every `Tag` and `Write` entry (removing such an
entry anywhere in the history leaves the output unchanged), sets the
`Prefetch` flag on every extent of the result, and returns the list in
coalesce-normalized form; the bytes covered by the output are exactly the
bytes of the `Miss`/`Hit` records, so no `Write` entry ever contributes an
extent. -/
theorem claim_C5_convert_history :
    (∀ (h1 h2 : List BC_history_entry) (w : BC_history_entry),
      w.he_flags = BC_HE_WRITE ∨ w.he_flags = BC_HE_TAG →
      BC_convert_history (h1 ++ w :: h2) = BC_convert_history (h1 ++ h2)) ∧
    (∀ hist : List BC_history_entry, ∀ y ∈ BC_convert_history hist,
      y.pce_flags = PCE_PREFETCH) ∧
    (∀ hist : List BC_history_entry,
      BC_coalesce_playlist (BC_convert_history hist) =
        BC_convert_history hist) ∧
    (∀ (hist : List BC_history_entry) (p : Nat),
      coveredL (BC_convert_history hist) p ↔
        ∃ h ∈ hist, (h.he_flags = BC_HE_MISS ∨ h.he_flags = BC_HE_HIT) ∧
          h.he_offset ≤ p ∧ p < h.he_offset + h.he_length) := by
  refine ⟨?_, ?_, ?_, ?_⟩
  · intro h1 h2 w hw
    unfold BC_convert_history
    congr 1
    rcases hw with hw | hw <;>
      simp [List.filter_append, List.filter_cons, hw, BC_HE_WRITE, BC_HE_TAG,
        BC_HE_MISS, BC_HE_HIT]
  · intro hist y hy
    unfold BC_convert_history at hy
    have h1 := coalesce_flags _ y hy
    obtain ⟨x0, hx0, _⟩ := (coalesce_wit _ y hy).1
    rw [h1]
    apply flagsOr_const PCE_PREFETCH _ (List.ne_nil_of_mem hx0)
    intro x hx
    obtain ⟨h2, _⟩ := mem_groupOf.mp hx
    obtain ⟨h3, _, h4⟩ := List.mem_map.mp h2
    rw [← h4]
  · intro hist
    unfold BC_convert_history
    exact coalesce_idem _
  · intro hist p
    unfold BC_convert_history
    rw [coalesce_cov]
    unfold coveredL
    constructor
    · rintro ⟨e, he, hc⟩
      obtain ⟨h, hh, hmap⟩ := List.mem_map.mp he
      obtain ⟨hmem, hq⟩ := List.mem_filter.mp hh
      refine ⟨h, hmem, ?_, ?_⟩
      · simpa [BC_HE_MISS, BC_HE_HIT] using hq
      · unfold covers entEnd at hc
        rw [← hmap] at hc
        simpa using hc
    · rintro ⟨h, hmem, hflags, hp1, hp2⟩
      refine ⟨⟨h.he_offset, h.he_length, PCE_PREFETCH⟩, ?_, ?_⟩
      · apply List.mem_map.mpr
        refine ⟨h, List.mem_filter.mpr ⟨hmem, ?_⟩, rfl⟩
        simpa [BC_HE_MISS, BC_HE_HIT] using hflags
      · unfold covers entEnd
        simpa using ⟨hp1, hp2⟩

/-- C6: saving a playlist already in normalized form (sorted,
pairwise-disjoint, at most 100000 entries) and loading the image back
yields the identical list. -/
lemma except_ok_bind {α β ε : Type} (a : α) (f : α → Except ε β) :
    (Except.ok a : Except ε α).bind f = f a := rfl

theorem claim_C6_roundtrip :
    ∀ P : List BC_playlist_entry, SepL P → P.length ≤ BC_MAXENTRIES →
      (BC_write_playlist P).bind BC_read_playlist = .ok P := by
  intro P _ hlen
  rw [BC_write_playlist, if_neg (by omega), except_ok_bind, BC_read_playlist]
  rw [if_neg (by simp [PLAYLIST_FILE_MAGIC, PLAYLIST_FILE_VERSION])]
  rw [if_neg (by simp)]
  rw [if_neg (by simpa using hlen)]
  have hid : ((fun p : Nat × Nat × Nat =>
      (⟨p.1, p.2.1, p.2.2⟩ : BC_playlist_entry)) ∘
      fun x : BC_playlist_entry =>
        (x.pce_offset, x.pce_length, x.pce_flags)) = id :=
    funext fun x => rfl
  simp only [List.map_map, hid, List.map_id]

/-- A concrete normalized playlist for the round-trip law. -/
def roundtripSample : List BC_playlist_entry := [⟨0, 5, 1⟩, ⟨10, 5, 0⟩]

theorem claim_C6_roundtrip_witness :
    (BC_write_playlist roundtripSample).bind BC_read_playlist =
      .ok roundtripSample :=
  claim_C6_roundtrip roundtripSample
    (List.chain'_cons.mpr ⟨by decide, List.chain'_singleton _⟩) (by decide)

/-- C7: `Stop` from any state other than `Active` (that is, without a
prior successful `Start`) fails with `InvalidState`; `History` while
`Active` or `Idle` fails with `InvalidState`; `Stats` succeeds in every
state, returning the snapshot and leaving the engine unchanged. -/
theorem claim_C7_state_errors :
    ∀ e : CacheEngine,
      (∀ now, e.state ≠ EngineState.Active →
        BC_stop e now = .error .InvalidState) ∧
      (e.state = EngineState.Active ∨ e.state = EngineState.Idle →
        BC_history_op e = .error .InvalidState) ∧
      BC_fetch_statistics e = .ok (e.stats, e) := by
  intro e
  refine ⟨?_, ?_, rfl⟩
  · intro now h
    simp [BC_stop, h]
  · intro h
    have h2 : e.state ≠ EngineState.Stopped := by
      rcases h with h | h <;> simp [h]
    simp [BC_history_op, h2]

/-- C8 (amended): when `Stop` succeeds from `Active`, the returned length
is the pending history size in bytes with 0 reported when the history was
truncated (an empty, untruncated history also reports 0, so 0 does not
imply truncation); the length is positive whenever the history is
non-empty and untruncated; and the recorder is left unchanged — whatever
was recorded stays until `History` clears it. -/
theorem claim_C8_stop_amended :
    ∀ (e : CacheEngine) (now : Nat), e.state = EngineState.Active →
      BC_stop e now = .ok (histReturnBytes e.recorder,
        { e with state := .Stopped, stats := stampStop e.stats now }) ∧
      (e.recorder.truncated = true → histReturnBytes e.recorder = 0) ∧
      (e.recorder.truncated = false →
        histReturnBytes e.recorder =
          e.recorder.entries.length * BC_history_entry_size) ∧
      (e.recorder.truncated = false → e.recorder.entries ≠ [] →
        0 < histReturnBytes e.recorder) := by
  intro e now h
  refine ⟨by simp [BC_stop, h], ?_, ?_, ?_⟩
  · intro ht
    simp [histReturnBytes, ht]
  · intro ht
    simp [histReturnBytes, ht]
  · intro ht hne
    have h1 : 0 < e.recorder.entries.length := List.length_pos.mpr hne
    simp only [histReturnBytes, ht, if_neg Bool.false_ne_true]
    unfold BC_history_entry_size
    omega

/-- An `Active` engine holding one recorded entry. -/
def stopSample : CacheEngine :=
  ⟨EngineState.Active, 512, [], ⟨[⟨0, 8, BC_HE_MISS⟩], false, 100⟩,
    initStats 512 0⟩

theorem claim_C8_stop_amended_witness :
    BC_stop stopSample 7 = .ok (histReturnBytes stopSample.recorder,
      { stopSample with
        state := .Stopped,
        stats := stampStop stopSample.stats 7 }) ∧
    (stopSample.recorder.truncated = true →
      histReturnBytes stopSample.recorder = 0) ∧
    (stopSample.recorder.truncated = false →
      histReturnBytes stopSample.recorder =
        stopSample.recorder.entries.length * BC_history_entry_size) ∧
    (stopSample.recorder.truncated = false →
      stopSample.recorder.entries ≠ [] →
      0 < histReturnBytes stopSample.recorder) :=
  claim_C8_stop_amended stopSample 7 rfl

/-- An idle engine with nothing recorded. -/
def engineIdle : CacheEngine :=
  ⟨EngineState.Idle, 0, [], ⟨[], false, 100⟩, initStats 0 0⟩

/-- The engine right after a successful `Start(512, [])` with no
intervening I/O: its history is empty and not truncated. -/
def engineStarted : CacheEngine :=
  match BC_start engineIdle 512 [] with
  | .ok e => e
  | .error _ => engineIdle

/-- The length `Stop` returns, when it succeeds. -/
def stopReturnLen (e : CacheEngine) : Option Nat :=
  match BC_stop e 0 with
  | .ok (n, _) => some n
  | .error _ => none

/-- The recorder contents after `Stop`, when it succeeds. -/
def stopRecorderEntries (e : CacheEngine) : Option (List BC_history_entry) :=
  match BC_stop e 0 with
  | .ok (_, f) => some f.recorder.entries
  | .error _ => none

/-- C8 counterexample: stopping a session in which nothing was recorded
returns length 0 although the history was never truncated — so `length` =
0 does not hold exactly when the history was truncated — and the recorder
after `Stop` is empty, not non-empty. -/
theorem claim_C8_counterexample :
    engineStarted.state = EngineState.Active ∧
    engineStarted.recorder.truncated = false ∧
    stopReturnLen engineStarted = some 0 ∧
    stopRecorderEntries engineStarted = some [] := by
  decide

/-- C9: across every step of the engine inside a session — interception,
`Stop`, `History`, `Tag`, `Stats`, prefetch completion or prefetch error —
every statistics counter is monotonically non-decreasing, and a successful
`Start` (and only `Start`) resets the counters to zero for the new
session. -/
theorem claim_C9_stats_monotone :
    (∀ e f : CacheEngine, SessStep e f → statsLE e.stats f.stats) ∧
    (∀ (e : CacheEngine) (bsize : Nat) (pl : List BC_playlist_entry)
        (f : CacheEngine), BC_start e bsize pl = .ok f →
      statsCountersZero f.stats ∧
      f.stats = initStats bsize (BC_coalesce_playlist pl).length) := by
  constructor
  · intro e f hstep
    cases hstep with
    | interceptStep r =>
        unfold intercept recordEntry
        split
        · simp [statsLE, Nat.le_add_right]
        · split
          · simp [statsLE, Nat.le_add_right]
          · split
            · simp [statsLE, Nat.le_add_right]
            · split
              · simp [statsLE, Nat.le_add_right]
              · simp [statsLE, Nat.le_add_right]
    | stopStep now len f h =>
        unfold BC_stop at h
        split at h
        · simp only [Except.ok.injEq, Prod.mk.injEq] at h
          rw [← h.2]
          simp [statsLE, stampStop]
        · simp at h
    | historyStep out f h =>
        unfold BC_history_op at h
        split at h
        · simp only [Except.ok.injEq, Prod.mk.injEq] at h
          rw [← h.2]
          simp [statsLE]
        · simp at h
    | tagStep f h =>
        unfold BC_tag_history at h
        split at h
        · simp only [Except.ok.injEq] at h
          rw [← h]
          unfold recordEntry
          simp [statsLE, Nat.le_add_right]
        · simp at h
    | statsStep => simp [statsLE]
    | prefetchOkStep i =>
        unfold prefetchComplete
        split
        · split
          · simp [statsLE, Nat.le_add_right]
          · simp [statsLE]
        · simp [statsLE]
    | prefetchErrStep i =>
        unfold prefetchError
        split
        · split
          · simp [statsLE, Nat.le_add_right]
          · simp [statsLE]
        · simp [statsLE]
  · intro e bsize pl f h
    unfold BC_start at h
    split at h
    · simp at h
    · split at h
      · simp at h
      · split at h
        · simp at h
        · simp only [Except.ok.injEq] at h
          rw [← h]
          exact ⟨by simp [statsCountersZero, initStats], rfl⟩

/-- C10: the three protocol magic constants declared in `BootCache.h` are
all the single value `0x10102021`, so the dispatcher's version check fails
with `VersionMismatch` exactly when `bc_magic` differs from `0x10102021`;
a command built against any of the three declared versions is accepted,
and the check cannot distinguish among them. -/
theorem claim_C10_magic :
    BC_MAGIC_0 = 0x10102021 ∧ BC_MAGIC_1 = 0x10102021 ∧
    BC_MAGIC = 0x10102021 ∧
    (∀ c : BC_command,
      (checkCommandMagic c = .error .VersionMismatch ↔
        c.bc_magic ≠ 0x10102021) ∧
      (checkCommandMagic c = .ok () ↔ c.bc_magic = 0x10102021) ∧
      ((c.bc_magic = BC_MAGIC_0 ∨ c.bc_magic = BC_MAGIC_1 ∨
        c.bc_magic = BC_MAGIC) → checkCommandMagic c = .ok ())) := by
  refine ⟨rfl, rfl, rfl, ?_⟩
  intro c
  unfold checkCommandMagic BC_MAGIC BC_MAGIC_0 BC_MAGIC_1
  by_cases h : c.bc_magic = 0x10102021
  · refine ⟨by simp [h], by simp [h], fun _ => by simp [h]⟩
  · refine ⟨by simp [h], by simp [h], ?_⟩
    intro hc
    rcases hc with hc | hc | hc <;> exact absurd hc h

end BootCache
